import Mathlib

/-!
Verification of the request-input defense layer of the repository
(`src/nextjs/app/lib/validation.ts`): sanitizers, schema validation and the
sliding-window rate limiter.  Strings are embedded as `List Char` (one entry
per UTF-16-ish code point; all inputs of interest are ASCII), JS numbers used
as times and counters are embedded as `Int`, and the mutable `Map` inside
`createRateLimiter` is embedded as an explicit state of type
`String → List Int` threaded through each call.
-/

/-- The set of whitespace characters recognised by the JS `\s` class and by
`String.prototype.trim` (space, tab, LF, VT, FF, CR, NBSP, and the Unicode
space separators). -/
def isJsSpace (c : Char) : Bool :=
  c == ' ' || c == '\t' || c == '\n' || c == (Char.ofNat 11) || c == (Char.ofNat 12) ||
  c == '\r' || c == (Char.ofNat 160) || c == (Char.ofNat 5760) ||
  (8192 ≤ c.toNat && c.toNat ≤ 8202) || c == (Char.ofNat 8232) || c == (Char.ofNat 8233) ||
  c == (Char.ofNat 8239) || c == (Char.ofNat 8287) || c == (Char.ofNat 12288) ||
  c == (Char.ofNat 65279)

/-- `String.prototype.trim`: drop leading and trailing JS whitespace. -/
def trim (s : List Char) : List Char :=
  (s.dropWhile isJsSpace).rdropWhile isJsSpace

/-- One pass of `String.prototype.replace(/pat/g, '')`, with `skip` characters
still to be deleted from a match already recognised: scans left to right,
deletes each non-overlapping occurrence of `p`, and resumes scanning after the
deleted occurrence (the spliced-together ends are not rescanned in this pass). -/
def raGo (p : List Char) : Nat → List Char → List Char
  | _ + 1, [] => []
  | k + 1, _ :: rest => raGo p k rest
  | 0, [] => []
  | 0, c :: rest =>
    if p.isPrefixOf (c :: rest) then raGo p (p.length - 1) rest
    else c :: raGo p 0 rest

/-- `s.replace(/p/g, '')` for a literal pattern `p`. -/
def removeAll (p : List Char) (s : List Char) : List Char :=
  if p.isEmpty then s else raGo p 0 s

/-- Case-insensitive scanner behind `replace(/pat/gi, '')`: the pattern `p` is
given in lower case and is matched against the lower-cased text (ASCII folding,
as JS regex canonicalisation does for ASCII patterns without the `u` flag). -/
def rciGo (p : List Char) : Nat → List Char → List Char
  | _ + 1, [] => []
  | k + 1, _ :: rest => rciGo p k rest
  | 0, [] => []
  | 0, c :: rest =>
    if p.isPrefixOf ((c :: rest).map Char.toLower) then rciGo p (p.length - 1) rest
    else c :: rciGo p 0 rest

/-- `s.replace(/p/gi, '')` for a literal lower-case pattern `p`. -/
def removeAllCI (p : List Char) (s : List Char) : List Char :=
  if p.isEmpty then s else rciGo p 0 s

/-- `p` occurs as a contiguous substring of `s`. -/
def occurs (p : List Char) : List Char → Bool
  | [] => p.isEmpty
  | c :: rest => p.isPrefixOf (c :: rest) || occurs p rest

/-- `p` (given lower-case) occurs case-insensitively in `s`. -/
def occursCI (p : List Char) (s : List Char) : Bool :=
  occurs p (s.map Char.toLower)

def quoteChar : Char := Char.ofNat 39

def backslashChar : Char := Char.ofNat 92

/-- `sanitizeText` from `validation.ts`: removes `<` and `>`, removes
`javascript:` case-insensitively, then trims. -/
def sanitizeText (text : List Char) : List Char :=
  trim (removeAllCI ("javascript:".toList)
    (text.filter (fun c => !(c == '<' || c == '>'))))

/-- `validateSearchQuery` from `validation.ts`: removes the characters
`' " ; \`, the sequences `--`, `/*`, `*/`, the case-insensitive sequences
`xp_` and `sp_`, truncates to 100 characters, then trims. -/
def validateSearchQuery (query : List Char) : List Char :=
  trim ((removeAllCI ("sp_".toList)
    (removeAllCI ("xp_".toList)
      (removeAll ("*/".toList)
        (removeAll ("/*".toList)
          (removeAll ("--".toList)
            (query.filter (fun c =>
              !(c == quoteChar || c == '"' || c == ';' || c == backslashChar)))))))).take 100)

/-- The reference pipeline for `sanitizeSearchTerm` exactly as the spec words
it: remove single-quote characters, remove double-quote characters, remove
backslash characters, remove every `--`, remove every `/*` and `*/`, remove
case-insensitively every `xp_` and `sp_`, truncate to 100 characters, then
trim. -/
def sanitizeSearchTermSpec (s : List Char) : List Char :=
  trim ((removeAllCI ("sp_".toList)
    (removeAllCI ("xp_".toList)
      (removeAll ("*/".toList)
        (removeAll ("/*".toList)
          (removeAll ("--".toList)
            ((((s.filter (fun c => !(c == quoteChar))).filter
                (fun c => !(c == '"'))).filter
                  (fun c => !(c == backslashChar))))))))).take 100)

/-- The reference pipeline amended to also remove semicolon characters in the
character-removal step, as the code does. -/
def sanitizeSearchTermSpecFix (s : List Char) : List Char :=
  trim ((removeAllCI ("sp_".toList)
    (removeAllCI ("xp_".toList)
      (removeAll ("*/".toList)
        (removeAll ("/*".toList)
          (removeAll ("--".toList)
            (((((s.filter (fun c => !(c == quoteChar))).filter
                (fun c => !(c == '"'))).filter
                  (fun c => !(c == ';'))).filter
                    (fun c => !(c == backslashChar))))))))).take 100)

/-! ### The HTML sanitizer

`sanitizeHtml` in `validation.ts` delegates to `DOMPurify.sanitize` with
`ALLOWED_TAGS: [b, i, em, strong, a]`, `ALLOWED_ATTR: [href]` and
`ALLOW_DATA_ATTR: false`.  DOMPurify is an external npm dependency whose code
is not part of this repository, so the sanitizer is modelled from the spec:
markup is parsed into text and tag tokens, tags outside the allow-list are
removed, attributes other than `href` are dropped from surviving tags, and
the result is re-serialised; malformed markup (an unterminated tag) is
dropped, so the function is total and never throws. -/

/-- A parsed markup token: a text character, an opening tag with its
attribute list (name/value pairs), or a closing tag. -/
inductive HTok where
  | text (c : Char)
  | tagOpen (name : List Char) (attrs : List (List Char × List Char))
  | tagClose (name : List Char)
deriving DecidableEq

/-- Split on spaces into maximal nonempty chunks; `acc` holds the reversed
chunk being built. -/
def splitSpGo : List Char → List Char → List (List Char)
  | acc, [] => if acc.isEmpty then [] else [acc.reverse]
  | acc, c :: rest =>
    if c == ' ' then
      (if acc.isEmpty then splitSpGo [] rest else acc.reverse :: splitSpGo [] rest)
    else splitSpGo (c :: acc) rest

def splitOnSpaces (s : List Char) : List (List Char) :=
  splitSpGo [] s

/-- Parse one `name=value` attribute chunk (a bare `name` gets an empty
value). -/
def parseAttrPiece (piece : List Char) : List Char × List Char :=
  (piece.takeWhile (fun c => !(c == '=')),
   (piece.dropWhile (fun c => !(c == '='))).drop 1)

/-- Parse the inside of a `<...>` segment into a tag token: a leading `/`
marks a closing tag; the name runs to the first space and is lower-cased;
the remainder is split into attribute chunks. -/
def parseTag (seg : List Char) : HTok :=
  match seg with
  | [] => HTok.tagOpen [] []
  | c :: rest =>
    if c == '/' then
      HTok.tagClose ((rest.takeWhile (fun ch => !(ch == ' '))).map Char.toLower)
    else
      HTok.tagOpen (((c :: rest).takeWhile (fun ch => !(ch == ' '))).map Char.toLower)
        ((splitOnSpaces ((c :: rest).dropWhile (fun ch => !(ch == ' ')))).map parseAttrPiece)

/-- Tokeniser: outside a tag (`none`) a `<` opens a tag segment and any other
character is text; inside a tag (`some acc`, reversed segment so far) a `>`
closes the segment; an unterminated segment is dropped. -/
def scanGo : Option (List Char) → List Char → List HTok
  | none, [] => []
  | none, c :: rest =>
    if c == '<' then scanGo (some []) rest else HTok.text c :: scanGo none rest
  | some _, [] => []
  | some seg, c :: rest =>
    if c == '>' then parseTag seg.reverse :: scanGo none rest
    else scanGo (some (c :: seg)) rest

def parseHtml (s : List Char) : List HTok :=
  scanGo none s

/-- The DOMPurify configuration from `validation.ts`: allowed tag names. -/
def allowedTags : List (List Char) :=
  [("b".toList), ("i".toList), ("em".toList), ("strong".toList), ("a".toList)]

/-- The single allowed attribute name (`ALLOWED_ATTR: [href]`). -/
def hrefName : List Char := "href".toList

/-- Keep a token iff it is text or an allowed tag; surviving open tags keep
only their `href` attributes. -/
def sanitizeTok : HTok → Option HTok
  | HTok.text c => some (HTok.text c)
  | HTok.tagOpen n attrs =>
    if n ∈ allowedTags then
      some (HTok.tagOpen n (attrs.filter (fun a => a.1 == hrefName)))
    else none
  | HTok.tagClose n => if n ∈ allowedTags then some (HTok.tagClose n) else none

/-- Serialise one attribute as a space followed by `name=value`. -/
def serAttr (a : List Char × List Char) : List Char :=
  ' ' :: (a.1 ++ '=' :: a.2)

def serializeTok : HTok → List Char
  | HTok.text c => [c]
  | HTok.tagOpen n attrs => '<' :: ((n ++ attrs.flatMap serAttr) ++ ['>'])
  | HTok.tagClose n => '<' :: '/' :: (n ++ ['>'])

/-- Modelled from the spec: `sanitizeHtml` from `validation.ts` delegates to
the external DOMPurify library (not part of this repository); per the spec it
returns the input with every tag not in the allow-list `{b, i, em, strong, a}`
removed and with every attribute other than `href` dropped from surviving
tags, handling malformed markup best-effort and never throwing. -/
def sanitizeHtml (dirty : List Char) : List Char :=
  ((parseHtml dirty).filterMap sanitizeTok).flatMap serializeTok

/-- Well-formedness of a token as produced by the sanitizer: text is never
`<`, tag names are allowed, and attribute values contain no `>` and no
space.  Round-tripping serialisation and parsing is exact on such tokens. -/
def WfTok : HTok → Prop
  | HTok.text c => c ≠ '<'
  | HTok.tagOpen n attrs =>
    n ∈ allowedTags ∧
      ∀ a ∈ attrs, a.1 = hrefName ∧ ∀ ch ∈ a.2, ((ch == '>') = false ∧ (ch == ' ') = false)
  | HTok.tagClose n => n ∈ allowedTags

/-! ### The rate limiter

`createRateLimiter(windowMs, maxRequests)` closes over a
`Map<string, number[]>`; the returned function reads `Date.now()`, prunes the
caller's stored timestamps to those strictly inside the trailing window,
rejects if the pruned count has reached `maxRequests` (leaving the map
untouched), and otherwise appends the current time and stores the pruned
list back.  The map is embedded as a total function `String → List Int`
(`Map.get` of an unseen identifier yields the empty list) and `Date.now()`
becomes the explicit argument `now`. -/

abbrev RLState := String → List Int

/-- The state of a freshly created limiter: no identifier has requests. -/
def emptyRL : RLState := fun _ => []

/-- One call of the closure returned by `createRateLimiter`. -/
def rateLimiterStep (windowMs maxRequests : Int) (st : RLState)
    (identifier : String) (now : Int) : Bool × RLState :=
  let windowStart := now - windowMs
  let userRequests := st identifier
  let recentRequests := userRequests.filter (fun time => decide (windowStart < time))
  if maxRequests ≤ (recentRequests.length : Int) then (false, st)
  else (true, fun i => if i = identifier then recentRequests ++ [now] else st i)

/-- Run a fresh limiter over a sequence of `(identifier, now)` calls and
return the final map state. -/
def rateLimiterRun (windowMs maxRequests : Int) (calls : List (String × Int)) : RLState :=
  calls.foldl (fun st c => (rateLimiterStep windowMs maxRequests st c.1 c.2).2) emptyRL

/-! ### Schema validation

The validation schemas in `validation.ts` are zod schemas; zod is an external
npm dependency whose code is not part of this repository, so the
field-validation semantics is modelled from the spec (§4.2): a record schema
is an ordered list of named field specs; for each field in schema order a
required-but-absent field records its failure, a present field is
type-checked and then run through all its constraint checks, collecting every
failing message (batch, not fail-fast); on success the transformed value is
stored under the same key; unknown input keys are never copied. -/

/-- An untyped input value (the relevant JS primitives). -/
inductive JValue where
  | vstr (s : String)
  | vnum (n : Int)
  | vbool (b : Bool)
deriving DecidableEq

/-- Field lookup in an input object. -/
def lookupKey (input : List (String × JValue)) (k : String) : Option JValue :=
  (input.find? (fun p => p.1 == k)).map (fun p => p.2)

/-- Modelled from the spec: one zod field — required flag, message for a
missing required field, a primitive type check, ordered constraint checks
(each yielding a message on failure), and a post-validation transform. -/
structure FieldSpec where
  required : Bool
  requiredMsg : String
  typeCheck : JValue → Option String
  checks : List (JValue → Option String)
  transform : JValue → JValue

/-- Modelled from the spec: validate one field; collects every failing
constraint message for a present value of the right type. -/
def checkField (fs : FieldSpec) (v : Option JValue) : Except (List String) (Option JValue) :=
  match v with
  | none => if fs.required then Except.error [fs.requiredMsg] else Except.ok none
  | some x =>
    match fs.typeCheck x with
    | some m => Except.error [m]
    | none =>
      match fs.checks.filterMap (fun c => c x) with
      | [] => Except.ok (some (fs.transform x))
      | m :: ms => Except.error (m :: ms)

def fieldErrors : Except (List String) (Option JValue) → List String
  | Except.error es => es
  | Except.ok _ => []

/-- Modelled from the spec: `schema.parse`-style validation of an input
object against a record schema: every field is checked in schema order, all
per-field failures of the call are collected before reporting, and on success
the output record holds exactly the transformed schema fields that were
present. -/
def validateRecord (schema : List (String × FieldSpec)) (input : List (String × JValue)) :
    Except (List String) (List (String × JValue)) :=
  let results := schema.map (fun kf => (kf.1, checkField kf.2 (lookupKey input kf.1)))
  let errs := results.flatMap (fun kr => fieldErrors kr.2)
  if errs.isEmpty then
    Except.ok (results.filterMap (fun kr =>
      match kr.2 with
      | Except.ok (some v) => some (kr.1, v)
      | _ => none))
  else Except.error errs

/-- `validateApiInput` from `validation.ts`: the throwing adapter.  The thrown
`Error` is embedded as the `Except.error` case; its message joins all
per-field messages with a comma separator. -/
def validateApiInput (schema : List (String × FieldSpec)) (input : List (String × JValue)) :
    Except String (List (String × JValue)) :=
  match validateRecord schema input with
  | Except.ok v => Except.ok v
  | Except.error es => Except.error ("Validation failed: " ++ String.intercalate (", ") es)

/-- The string payload of a value (checks run after the type check, so only
`vstr` reaches them). -/
def strVal : JValue → String
  | JValue.vstr s => s
  | _ => ""

def strTypeCheck : JValue → Option String
  | JValue.vstr _ => none
  | _ => some "Expected string"

/-- The character class of the name regex `[a-zA-Z\s'-]` from
`userValidationSchema`. -/
def nameCharOk (c : Char) : Bool :=
  (decide ('a' ≤ c) && decide (c ≤ 'z')) || (decide ('A' ≤ c) && decide (c ≤ 'Z')) ||
  isJsSpace c || c == quoteChar || c == '-'

def nameMinCheck (v : JValue) : Option String :=
  if (strVal v).length < 1 then some "Name is required" else none

def nameMaxCheck (v : JValue) : Option String :=
  if 100 < (strVal v).length then some "Name must be less than 100 characters" else none

def nameRegexCheck (v : JValue) : Option String :=
  if (strVal v).toList.isEmpty || !((strVal v).toList.all nameCharOk) then
    some "Name contains invalid characters"
  else none

/-- Modelled from the spec: the `name` field of `userValidationSchema`
(zod `string().min(1).max(100).regex(...)`). -/
def nameField : FieldSpec :=
  { required := true, requiredMsg := "Required", typeCheck := strTypeCheck,
    checks := [nameMinCheck, nameMaxCheck, nameRegexCheck], transform := fun v => v }

/-- Modelled from the spec: zod's email format constraint, simplified to the
shape `local@domain.tld` (exactly one `@`, nonempty local part, a dot in the
nonempty domain, no spaces). -/
def emailFormatCheck (v : JValue) : Option String :=
  if ((strVal v).toList.count '@' == 1)
      && !((strVal v).toList.takeWhile (fun c => !(c == '@'))).isEmpty
      && !(((strVal v).toList.dropWhile (fun c => !(c == '@'))).drop 1).isEmpty
      && (((strVal v).toList.dropWhile (fun c => !(c == '@'))).drop 1).contains '.'
      && !((strVal v).toList.contains ' ') then none
  else some "Invalid email format"

def emailMaxCheck (v : JValue) : Option String :=
  if 100 < (strVal v).length then some "Email must be less than 100 characters" else none

/-- Modelled from the spec: the `email` field of `userValidationSchema`
(zod `string().email().max(100)`). -/
def emailField : FieldSpec :=
  { required := true, requiredMsg := "Required", typeCheck := strTypeCheck,
    checks := [emailFormatCheck, emailMaxCheck], transform := fun v => v }

/-- Modelled from the spec: the `role` field of `userValidationSchema`
(zod `enum([admin, user, manager])` with a custom error map, so every
failure — wrong value, wrong type or missing — carries the same message). -/
def roleField : FieldSpec :=
  { required := true, requiredMsg := "Role must be admin, user, or manager",
    typeCheck := fun v =>
      match v with
      | JValue.vstr _ => none
      | _ => some "Role must be admin, user, or manager",
    checks := [fun v =>
      if (strVal v == "admin") || (strVal v == "user") || (strVal v == "manager") then none
      else some "Role must be admin, user, or manager"],
    transform := fun v => v }

/-- Modelled from the spec: the `bio` field of `userValidationSchema`
(optional zod `string().max(500)` with a transform that sanitizes truthy
values through `sanitizeHtml`). -/
def bioField : FieldSpec :=
  { required := false, requiredMsg := "Required", typeCheck := strTypeCheck,
    checks := [fun v =>
      if 500 < (strVal v).length then some "Bio must be less than 500 characters" else none],
    transform := fun v =>
      match v with
      | JValue.vstr s => if s.isEmpty then v else JValue.vstr (String.mk (sanitizeHtml s.toList))
      | _ => v }

/-- `userValidationSchema` from `validation.ts` (field specs modelled from the
spec, zod being external). -/
def userValidationSchema : List (String × FieldSpec) :=
  [("name", nameField), ("email", emailField), ("role", roleField), ("bio", bioField)]

/-- The two-field `{name, email}` schema of the spec's allow-list scenario,
built from the same field specs. -/
def nameEmailSchema : List (String × FieldSpec) :=
  [("name", nameField), ("email", emailField)]

deriving instance DecidableEq for Except

/-! ### Basic lemmas about the string helpers -/

theorem mem_raGo {p : List Char} {k : Nat} {s : List Char} {c : Char}
    (h : c ∈ raGo p k s) : c ∈ s := by
  induction s generalizing k with
  | nil => cases k <;> exact h
  | cons a rest ih =>
    cases k with
    | succ k => exact List.mem_cons_of_mem a (ih h)
    | zero =>
      rw [raGo] at h
      split at h
      · exact List.mem_cons_of_mem a (ih h)
      · rcases List.mem_cons.mp h with h | h
        · exact h ▸ List.mem_cons_self a rest
        · exact List.mem_cons_of_mem a (ih h)

theorem mem_removeAll {p s : List Char} {c : Char} (h : c ∈ removeAll p s) :
    c ∈ s := by
  unfold removeAll at h
  split at h
  · exact h
  · exact mem_raGo h

theorem mem_rciGo {p : List Char} {k : Nat} {s : List Char} {c : Char}
    (h : c ∈ rciGo p k s) : c ∈ s := by
  induction s generalizing k with
  | nil => cases k <;> exact h
  | cons a rest ih =>
    cases k with
    | succ k => exact List.mem_cons_of_mem a (ih h)
    | zero =>
      rw [rciGo] at h
      split at h
      · exact List.mem_cons_of_mem a (ih h)
      · rcases List.mem_cons.mp h with h | h
        · exact h ▸ List.mem_cons_self a rest
        · exact List.mem_cons_of_mem a (ih h)

theorem mem_removeAllCI {p s : List Char} {c : Char} (h : c ∈ removeAllCI p s) :
    c ∈ s := by
  unfold removeAllCI at h
  split at h
  · exact h
  · exact mem_rciGo h

theorem raGo_zero_of_not_occurs {p s : List Char} (h : occurs p s = false) :
    raGo p 0 s = s := by
  induction s with
  | nil => rfl
  | cons a rest ih =>
    rw [occurs, Bool.or_eq_false_iff] at h
    rw [raGo, if_neg (by simp [h.1]), ih h.2]

theorem removeAll_of_not_occurs {p s : List Char} (h : occurs p s = false) :
    removeAll p s = s := by
  unfold removeAll
  split
  · rfl
  · exact raGo_zero_of_not_occurs h

theorem rciGo_zero_of_not_occursCI {p s : List Char} (h : occursCI p s = false) :
    rciGo p 0 s = s := by
  induction s with
  | nil => rfl
  | cons a rest ih =>
    rw [occursCI, List.map_cons, occurs, Bool.or_eq_false_iff] at h
    rw [rciGo, if_neg (by simp only [List.map_cons]; simp [h.1]), ih h.2]

theorem removeAllCI_of_not_occursCI {p s : List Char} (h : occursCI p s = false) :
    removeAllCI p s = s := by
  unfold removeAllCI
  split
  · rfl
  · exact rciGo_zero_of_not_occursCI h

theorem trim_sublist (s : List Char) : List.Sublist (trim s) s :=
  ((List.rdropWhile_prefix isJsSpace (s.dropWhile isJsSpace)).sublist).trans
    (List.dropWhile_sublist isJsSpace)

theorem mem_trim {s : List Char} {c : Char} (h : c ∈ trim s) : c ∈ s :=
  (trim_sublist s).subset h

theorem length_trim_le (s : List Char) : (trim s).length ≤ s.length :=
  (trim_sublist s).length_le

theorem dropWhile_trim (s : List Char) :
    (trim s).dropWhile isJsSpace = trim s := by
  unfold trim
  rcases h : (s.dropWhile isJsSpace).rdropWhile isJsSpace with _ | ⟨a, t⟩
  · rfl
  · have hpre := List.rdropWhile_prefix isJsSpace (s.dropWhile isJsSpace)
    rw [h] at hpre
    rcases hpre with ⟨u, hu⟩
    have hh := List.head?_dropWhile_not isJsSpace s
    rw [← hu] at hh
    have hhead : isJsSpace a = false := by simpa using hh
    rw [List.dropWhile_cons_of_neg (by simp [hhead])]

theorem trim_idempotent (s : List Char) : trim (trim s) = trim s := by
  conv_lhs => rw [trim, dropWhile_trim]
  rw [trim, List.rdropWhile_idempotent]

theorem trim_take_length_le (s : List Char) (n : Nat) :
    (trim (s.take n)).length ≤ n :=
  (length_trim_le (s.take n)).trans (s.length_take_le n)

theorem vsq_fixpoint (y : List Char)
    (hfil : ∀ c ∈ y, (!(c == quoteChar || c == '"' || c == ';' || c == backslashChar)) = true)
    (h1 : occurs ("--".toList) y = false)
    (h2 : occurs ("/*".toList) y = false)
    (h3 : occurs ("*/".toList) y = false)
    (h4 : occursCI ("xp_".toList) y = false)
    (h5 : occursCI ("sp_".toList) y = false)
    (hlen : y.length ≤ 100) (htrim : trim y = y) :
    validateSearchQuery y = y := by
  unfold validateSearchQuery
  rw [List.filter_eq_self.mpr hfil, removeAll_of_not_occurs h1, removeAll_of_not_occurs h2,
    removeAll_of_not_occurs h3, removeAllCI_of_not_occursCI h4, removeAllCI_of_not_occursCI h5,
    List.take_of_length_le hlen, htrim]

theorem sanitizeText_fixpoint (y : List Char)
    (hfil : ∀ c ∈ y, (!(c == '<' || c == '>')) = true)
    (hjs : occursCI ("javascript:".toList) y = false)
    (htrim : trim y = y) :
    sanitizeText y = y := by
  unfold sanitizeText
  rw [List.filter_eq_self.mpr hfil, removeAllCI_of_not_occursCI hjs, htrim]

theorem mem_vsq_chain {s : List Char} {c : Char} (hc : c ∈ validateSearchQuery s) :
    c ∈ s.filter (fun c =>
      !(c == quoteChar || c == '"' || c == ';' || c == backslashChar)) :=
  mem_removeAll (mem_removeAll (mem_removeAll
    (mem_removeAllCI (mem_removeAllCI (List.mem_of_mem_take (mem_trim hc))))))

theorem vsq_length_le (s : List Char) : (validateSearchQuery s).length ≤ 100 :=
  trim_take_length_le _ 100

/-- C8: for every string, the output of `validateSearchQuery`
(spec: `sanitizeSearchTerm`) has length at most 100. -/
theorem C8_search_term_length_bound (s : List Char) :
    (validateSearchQuery s).length ≤ 100 :=
  vsq_length_le s

/-- C1 (counterexample): the sanitizers are not all idempotent.  Deleting an
occurrence of a pattern can splice the surrounding characters into a fresh
occurrence, which only a second pass removes: `sanitizeText` (spec:
`sanitizePlainText`) maps `javajavascript:script:` to `javascript:`, which a
second application maps to the empty string, and `validateSearchQuery`
(spec: `sanitizeSearchTerm`) maps `xsp_p_` to `xp_`, which a second
application maps to the empty string. -/
theorem C1_sanitizer_idempotence_counterexample :
    sanitizeText (sanitizeText ("javajavascript:script:".toList))
        ≠ sanitizeText ("javajavascript:script:".toList) ∧
      validateSearchQuery (validateSearchQuery ("xsp_p_".toList))
        ≠ validateSearchQuery ("xsp_p_".toList) := by
  constructor
  · decide
  · decide

/-- C3 (counterexample): `validateSearchQuery` (spec: `sanitizeSearchTerm`)
differs from the spec's reference pipeline, because the code's first
character-removal step also removes semicolons (`/['";\\]/g`) while the spec
pipeline removes only quotes and backslashes: on the one-character input `;`
the code yields the empty string, the reference pipeline yields `;`. -/
theorem C3_search_pipeline_counterexample :
    validateSearchQuery (";".toList) ≠ sanitizeSearchTermSpec (";".toList) := by
  decide

/-- C3 (amended): for every input, `validateSearchQuery` equals the reference
pipeline amended to also remove semicolon characters in its first step:
remove single-quote, double-quote, semicolon, and backslash characters;
remove every `--`; remove every `/*` and `*/`; remove case-insensitively
every `xp_` and `sp_`; truncate to 100 characters; then trim. -/
theorem C3_search_pipeline_refinement (s : List Char) :
    validateSearchQuery s = sanitizeSearchTermSpecFix s := by
  unfold validateSearchQuery sanitizeSearchTermSpecFix
  have hf : s.filter (fun c =>
        !(c == quoteChar || c == '"' || c == ';' || c == backslashChar))
      = ((((s.filter (fun c => !(c == quoteChar))).filter
          (fun c => !(c == '"'))).filter
            (fun c => !(c == ';'))).filter
              (fun c => !(c == backslashChar))) := by
    rw [List.filter_filter, List.filter_filter, List.filter_filter]
    apply List.filter_congr
    intro c _
    cases hq : (c == quoteChar) <;> cases hd : (c == '"') <;>
      cases hs : (c == ';') <;> cases hb : (c == backslashChar) <;>
      simp [hq, hd, hs, hb]
  rw [hf]

theorem step_reject (w m : Int) (st : RLState) (idf : String) (now : Int)
    (h : m ≤ (((st idf).filter (fun time => decide (now - w < time))).length : Int)) :
    rateLimiterStep w m st idf now = (false, st) := by
  unfold rateLimiterStep
  rw [if_pos h]

theorem step_accepts (w m : Int) (st : RLState) (idf : String) (now : Int)
    (h : ¬ m ≤ (((st idf).filter (fun time => decide (now - w < time))).length : Int)) :
    rateLimiterStep w m st idf now
      = (true, fun i => if i = idf then
          ((st idf).filter (fun time => decide (now - w < time))) ++ [now] else st i) := by
  unfold rateLimiterStep
  rw [if_neg h]

/-- C4: whenever a call is rejected (returns `false`), the limiter's stored
map is left completely unchanged — for every identifier — so the rejected
attempt is not recorded and cannot count toward any future window. -/
theorem C4_reject_leaves_state_unchanged (w m : Int) (st : RLState)
    (idf : String) (now : Int)
    (h : (rateLimiterStep w m st idf now).1 = false) :
    (rateLimiterStep w m st idf now).2 = st := by
  by_cases hc : m ≤ (((st idf).filter (fun time => decide (now - w < time))).length : Int)
  · rw [step_reject w m st idf now hc]
  · rw [step_accepts w m st idf now hc] at h
    cases h

theorem C4_witness :
    (rateLimiterStep 1000 0 emptyRL ("a") 5).1 = false ∧
      (rateLimiterStep 1000 0 emptyRL ("a") 5).2 = emptyRL :=
  ⟨by decide, C4_reject_leaves_state_unchanged 1000 0 emptyRL ("a") 5 (by decide)⟩

theorem step_decision_local (w m : Int) (st1 st2 : RLState) (b : String) (now : Int)
    (h : st1 b = st2 b) :
    (rateLimiterStep w m st1 b now).1 = (rateLimiterStep w m st2 b now).1 := by
  simp only [rateLimiterStep]
  rw [h]
  by_cases hC : m ≤ ((List.filter (fun time => decide (now - w < time)) (st2 b)).length : Int)
  · rw [if_pos hC, if_pos hC]
  · rw [if_neg hC, if_neg hC]

/-- C7: a call for identifier `a` never changes the stored timestamp list of
a distinct identifier `b`, and never changes the admit/reject outcome of a
subsequent call for `b`. -/
theorem C7_identifier_isolation (w m : Int) (st : RLState) (a b : String)
    (now now2 : Int) (hab : a ≠ b) :
    (rateLimiterStep w m st a now).2 b = st b ∧
      (rateLimiterStep w m ((rateLimiterStep w m st a now).2) b now2).1
        = (rateLimiterStep w m st b now2).1 := by
  have hstate : (rateLimiterStep w m st a now).2 b = st b := by
    by_cases hc : m ≤ (((st a).filter (fun time => decide (now - w < time))).length : Int)
    · rw [step_reject w m st a now hc]
    · rw [step_accepts w m st a now hc]
      exact if_neg (fun hba => hab hba.symm)
  exact ⟨hstate, step_decision_local w m _ st b now2 hstate⟩

theorem C7_witness :
    (rateLimiterStep 1000 3 emptyRL ("a") 0).2 ("b") = emptyRL ("b") ∧
      (rateLimiterStep 1000 3 ((rateLimiterStep 1000 3 emptyRL ("a") 0).2) ("b") 1).1
        = (rateLimiterStep 1000 3 emptyRL ("b") 1).1 :=
  C7_identifier_isolation 1000 3 emptyRL ("a") ("b") 0 1 (by decide)

theorem step_preserves_bound (w m : Int) (st : RLState) (idf : String) (now : Int)
    (hinv : ∀ i, (((st i).length : Int)) ≤ m) :
    ∀ i, ((((rateLimiterStep w m st idf now).2 i).length : Int)) ≤ m := by
  intro i
  by_cases hc : m ≤ (((st idf).filter (fun time => decide (now - w < time))).length : Int)
  · rw [step_reject w m st idf now hc]
    exact hinv i
  · simp only [step_accepts w m st idf now hc]
    by_cases hib : i = idf
    · rw [if_pos hib]
      rw [List.length_append, List.length_singleton]
      push_cast
      push_cast at hc
      omega
    · rw [if_neg hib]
      exact hinv i

theorem run_preserves_bound (w m : Int) (calls : List (String × Int)) :
    ∀ st : RLState, (∀ i, (((st i).length : Int)) ≤ m) →
      ∀ i, (((calls.foldl
        (fun st c => (rateLimiterStep w m st c.1 c.2).2) st) i).length : Int) ≤ m := by
  induction calls with
  | nil => intro st hst i; exact hst i
  | cons c rest ih =>
    intro st hst i
    rw [List.foldl_cons]
    exact ih _ (step_preserves_bound w m st c.1 c.2 hst) i

/-- C10 (implicit invariant): after any sequence of calls on a fresh limiter
with a nonnegative `maxRequests`, every identifier's stored timestamp list
has length at most `maxRequests` — an entry is only written on admission, as
the pruned list (shorter than `maxRequests`) plus one new timestamp. -/
theorem C10_stored_window_bounded (w m : Int) (calls : List (String × Int))
    (idf : String) (h0 : 0 ≤ m) :
    (((rateLimiterRun w m calls) idf).length : Int) ≤ m := by
  unfold rateLimiterRun
  exact run_preserves_bound w m calls emptyRL (fun i => by simpa [emptyRL] using h0) idf

theorem C10_witness :
    (0 : Int) ≤ 2 ∧
      (((rateLimiterRun 1000 2 [(("a"), 0), (("a"), 1), (("a"), 2)] ("a")).length : Int)) ≤ 2 :=
  ⟨by decide, C10_stored_window_bounded 1000 2 [(("a"), 0), (("a"), 1), (("a"), 2)] ("a") (by decide)⟩

/-- C2: with `windowMs = 1000` and `maxRequests = 3`, four calls for the same
identifier within 1000ms are answered `true, true, true, false`, and a fifth
call at the first call's time plus 1001ms (the window fully elapsed) is
answered `true`. -/
theorem C2_rate_limiter_exactness (idf : String) (t1 t2 t3 t4 : Int)
    (h12 : t1 ≤ t2) (h23 : t2 ≤ t3) (h34 : t3 ≤ t4) (hw : t4 < t1 + 1000) :
    (rateLimiterStep 1000 3 emptyRL idf t1).1 = true ∧
    (rateLimiterStep 1000 3
      (rateLimiterStep 1000 3 emptyRL idf t1).2 idf t2).1 = true ∧
    (rateLimiterStep 1000 3 (rateLimiterStep 1000 3
      (rateLimiterStep 1000 3 emptyRL idf t1).2 idf t2).2 idf t3).1 = true ∧
    (rateLimiterStep 1000 3 (rateLimiterStep 1000 3 (rateLimiterStep 1000 3
      (rateLimiterStep 1000 3 emptyRL idf t1).2 idf t2).2 idf t3).2 idf t4).1 = false ∧
    (rateLimiterStep 1000 3 (rateLimiterStep 1000 3 (rateLimiterStep 1000 3
      (rateLimiterStep 1000 3 (rateLimiterStep 1000 3 emptyRL idf t1).2 idf t2).2
        idf t3).2 idf t4).2 idf (t1 + 1001)).1 = true := by
  have ht21 : t2 - 1000 < t1 := by omega
  have ht31 : t3 - 1000 < t1 := by omega
  have ht32 : t3 - 1000 < t2 := by omega
  have ht41 : t4 - 1000 < t1 := by omega
  have ht42 : t4 - 1000 < t2 := by omega
  have ht43 : t4 - 1000 < t3 := by omega
  have c1 : ¬ (3 : Int) ≤
      (((emptyRL idf).filter (fun time => decide (t1 - 1000 < time))).length : Int) := by
    simp [emptyRL]
  have b1 : (rateLimiterStep 1000 3 emptyRL idf t1).1 = true := by
    rw [step_accepts 1000 3 emptyRL idf t1 c1]
  have s1 : (rateLimiterStep 1000 3 emptyRL idf t1).2 idf = [t1] := by
    rw [step_accepts 1000 3 emptyRL idf t1 c1]
    simp [emptyRL]
  have c2 : ¬ (3 : Int) ≤
      ((((rateLimiterStep 1000 3 emptyRL idf t1).2 idf).filter
        (fun time => decide (t2 - 1000 < time))).length : Int) := by
    rw [s1]
    simp [ht21]
  have b2 : (rateLimiterStep 1000 3
      (rateLimiterStep 1000 3 emptyRL idf t1).2 idf t2).1 = true := by
    rw [step_accepts 1000 3 _ idf t2 c2]
  have s2 : (rateLimiterStep 1000 3
      (rateLimiterStep 1000 3 emptyRL idf t1).2 idf t2).2 idf = [t1, t2] := by
    rw [step_accepts 1000 3 _ idf t2 c2]
    simp [s1, ht21]
  have c3 : ¬ (3 : Int) ≤
      ((((rateLimiterStep 1000 3
          (rateLimiterStep 1000 3 emptyRL idf t1).2 idf t2).2 idf).filter
        (fun time => decide (t3 - 1000 < time))).length : Int) := by
    rw [s2]
    simp [ht31, ht32]
  have b3 : (rateLimiterStep 1000 3 (rateLimiterStep 1000 3
      (rateLimiterStep 1000 3 emptyRL idf t1).2 idf t2).2 idf t3).1 = true := by
    rw [step_accepts 1000 3 _ idf t3 c3]
  have s3 : (rateLimiterStep 1000 3 (rateLimiterStep 1000 3
      (rateLimiterStep 1000 3 emptyRL idf t1).2 idf t2).2 idf t3).2 idf
        = [t1, t2, t3] := by
    rw [step_accepts 1000 3 _ idf t3 c3]
    simp [s2, ht31, ht32]
  have c4 : (3 : Int) ≤
      ((((rateLimiterStep 1000 3 (rateLimiterStep 1000 3
          (rateLimiterStep 1000 3 emptyRL idf t1).2 idf t2).2 idf t3).2 idf).filter
        (fun time => decide (t4 - 1000 < time))).length : Int) := by
    rw [s3]
    simp [ht41, ht42, ht43]
  have b4 : (rateLimiterStep 1000 3 (rateLimiterStep 1000 3 (rateLimiterStep 1000 3
      (rateLimiterStep 1000 3 emptyRL idf t1).2 idf t2).2 idf t3).2 idf t4).1
        = false := by
    rw [step_reject 1000 3 _ idf t4 c4]
  have s4 : (rateLimiterStep 1000 3 (rateLimiterStep 1000 3 (rateLimiterStep 1000 3
      (rateLimiterStep 1000 3 emptyRL idf t1).2 idf t2).2 idf t3).2 idf t4).2 idf
        = [t1, t2, t3] := by
    rw [step_reject 1000 3 _ idf t4 c4]
    exact s3
  have c5 : ¬ (3 : Int) ≤
      ((((rateLimiterStep 1000 3 (rateLimiterStep 1000 3 (rateLimiterStep 1000 3
          (rateLimiterStep 1000 3 emptyRL idf t1).2 idf t2).2 idf t3).2 idf t4).2
            idf).filter
        (fun time => decide (t1 + 1001 - 1000 < time))).length : Int) := by
    rw [s4]
    have hdrop : List.filter (fun time => decide (t1 + 1001 - 1000 < time)) [t1, t2, t3]
        = List.filter (fun time => decide (t1 + 1001 - 1000 < time)) [t2, t3] := by
      rw [List.filter_cons]
      have : ¬ (t1 + 1001 - 1000 < t1) := by omega
      simp [this]
    rw [hdrop]
    have hle : (List.filter (fun time => decide (t1 + 1001 - 1000 < time)) [t2, t3]).length
        ≤ 2 := List.length_filter_le _ _
    omega
  have b5 : (rateLimiterStep 1000 3 (rateLimiterStep 1000 3 (rateLimiterStep 1000 3
      (rateLimiterStep 1000 3 (rateLimiterStep 1000 3 emptyRL idf t1).2 idf t2).2
        idf t3).2 idf t4).2 idf (t1 + 1001)).1 = true := by
    rw [step_accepts 1000 3 _ idf (t1 + 1001) c5]
  exact ⟨b1, b2, b3, b4, b5⟩

theorem C2_witness :
    (rateLimiterStep 1000 3 emptyRL ("a") 0).1 = true ∧
    (rateLimiterStep 1000 3
      (rateLimiterStep 1000 3 emptyRL ("a") 0).2 ("a") 1).1 = true ∧
    (rateLimiterStep 1000 3 (rateLimiterStep 1000 3
      (rateLimiterStep 1000 3 emptyRL ("a") 0).2 ("a") 1).2 ("a") 2).1 = true ∧
    (rateLimiterStep 1000 3 (rateLimiterStep 1000 3 (rateLimiterStep 1000 3
      (rateLimiterStep 1000 3 emptyRL ("a") 0).2 ("a") 1).2 ("a") 2).2 ("a") 3).1
        = false ∧
    (rateLimiterStep 1000 3 (rateLimiterStep 1000 3 (rateLimiterStep 1000 3
      (rateLimiterStep 1000 3 (rateLimiterStep 1000 3 emptyRL ("a") 0).2 ("a") 1).2
        ("a") 2).2 ("a") 3).2 ("a") (0 + 1001)).1 = true :=
  C2_rate_limiter_exactness ("a") 0 1 2 3 (by decide) (by decide) (by decide) (by decide)

/-- C5: whenever validation fails, every message of every failing field of
that call is collected into the reported error list (batch reporting, not
fail-fast), the throwing adapter `validateApiInput` raises exactly one
aggregated error whose message joins all per-field messages with a comma
separator, and no output record is produced. -/
theorem C5_batch_error_reporting (schema : List (String × FieldSpec))
    (input : List (String × JValue)) (es : List String)
    (h : validateRecord schema input = Except.error es) :
    (∀ k fs msgs, (k, fs) ∈ schema →
        checkField fs (lookupKey input k) = Except.error msgs →
        ∀ m ∈ msgs, m ∈ es) ∧
      validateApiInput schema input
        = Except.error ("Validation failed: " ++ String.intercalate (", ") es) := by
  have hes : es = (schema.map
      (fun kf => (kf.1, checkField kf.2 (lookupKey input kf.1)))).flatMap
        (fun kr => fieldErrors kr.2) := by
    simp only [validateRecord] at h
    by_cases he : ((schema.map
        (fun kf => (kf.1, checkField kf.2 (lookupKey input kf.1)))).flatMap
          (fun kr => fieldErrors kr.2)).isEmpty
    · rw [if_pos he] at h
      cases h
    · rw [if_neg he] at h
      injection h with h'
      exact h'.symm
  constructor
  · intro k fs msgs hmem hcf m hm
    rw [hes]
    apply List.mem_flatMap.mpr
    refine ⟨(k, checkField fs (lookupKey input k)), List.mem_map.mpr ⟨(k, fs), hmem, rfl⟩, ?_⟩
    simp only [fieldErrors, hcf]
    exact hm
  · unfold validateApiInput
    rw [h]

theorem C5_witness :
    validateApiInput userValidationSchema
        [(("name"), JValue.vstr ""), (("email"), JValue.vstr "nope")]
      = Except.error ("Validation failed: " ++ String.intercalate (", ")
          ["Name is required", "Name contains invalid characters", "Invalid email format",
           "Role must be admin, user, or manager"]) :=
  (C5_batch_error_reporting userValidationSchema
    [(("name"), JValue.vstr ""), (("email"), JValue.vstr "nope")]
    ["Name is required", "Name contains invalid characters", "Invalid email format",
     "Role must be admin, user, or manager"] (by decide)).2

/-- C6: validation output is an allow-list — every key of a successful
output record is a schema key, so unknown input keys are never copied
through; in particular, for the `{name, email}` schema and the input
`{name: x, email: y@z.com, admin: true}` the output holds exactly `name`
and `email` and no `admin` key. -/
theorem C6_unknown_keys_dropped :
    (∀ (schema : List (String × FieldSpec)) (input out : List (String × JValue)),
        validateRecord schema input = Except.ok out →
        ∀ k v, (k, v) ∈ out → k ∈ schema.map Prod.fst) ∧
      validateRecord nameEmailSchema
        [(("name"), JValue.vstr "x"), (("email"), JValue.vstr "y@z.com"),
         (("admin"), JValue.vbool true)]
        = Except.ok [(("name"), JValue.vstr "x"), (("email"), JValue.vstr "y@z.com")] := by
  constructor
  · intro schema input out h k v hkv
    have hout : out = (schema.map
        (fun kf => (kf.1, checkField kf.2 (lookupKey input kf.1)))).filterMap
          (fun kr => match kr.2 with
            | Except.ok (some v) => some (kr.1, v)
            | _ => none) := by
      simp only [validateRecord] at h
      by_cases he : ((schema.map
          (fun kf => (kf.1, checkField kf.2 (lookupKey input kf.1)))).flatMap
            (fun kr => fieldErrors kr.2)).isEmpty
      · rw [if_pos he] at h
        injection h with h'
        exact h'.symm
      · rw [if_neg he] at h
        cases h
    rw [hout] at hkv
    rcases List.mem_filterMap.mp hkv with ⟨kr, hkr, hg⟩
    rcases List.mem_map.mp hkr with ⟨kf, hkf, rfl⟩
    refine List.mem_map.mpr ⟨kf, hkf, ?_⟩
    rcases hcf : checkField kf.2 (lookupKey input kf.1) with msgs | ov
    · simp [hcf] at hg
    · cases ov with
      | none => simp [hcf] at hg
      | some v0 =>
        simp only [hcf] at hg
        injection hg with hg'
        exact congrArg Prod.fst hg'
  · decide

theorem C6_witness : ("name" : String) ∈ nameEmailSchema.map Prod.fst :=
  C6_unknown_keys_dropped.1 nameEmailSchema
    [(("name"), JValue.vstr "x"), (("email"), JValue.vstr "y@z.com"),
     (("admin"), JValue.vbool true)]
    [(("name"), JValue.vstr "x"), (("email"), JValue.vstr "y@z.com")]
    (by decide) ("name") (JValue.vstr "x") (by decide)

theorem takeWhile_append_all {p : Char → Bool} {w : List Char} (r : List Char)
    (h : ∀ c ∈ w, p c = true) : (w ++ r).takeWhile p = w ++ r.takeWhile p := by
  induction w with
  | nil => simp
  | cons c wr ih =>
    rw [List.cons_append, List.takeWhile_cons_of_pos (h c (List.mem_cons_self c wr)),
      ih (fun x hx => h x (List.mem_cons_of_mem c hx)), List.cons_append]

theorem dropWhile_append_all {p : Char → Bool} {w : List Char} (r : List Char)
    (h : ∀ c ∈ w, p c = true) : (w ++ r).dropWhile p = r.dropWhile p := by
  induction w with
  | nil => simp
  | cons c wr ih =>
    rw [List.cons_append, List.dropWhile_cons_of_pos (h c (List.mem_cons_self c wr)),
      ih (fun x hx => h x (List.mem_cons_of_mem c hx))]

theorem splitSpGo_chunk (piece : List Char) : ∀ (acc r : List Char),
    (∀ ch ∈ piece, (ch == ' ') = false) →
    splitSpGo acc (piece ++ r) = splitSpGo (piece.reverse ++ acc) r := by
  induction piece with
  | nil => intro acc r _; simp
  | cons c pr ih =>
    intro acc r h
    rw [List.cons_append]
    show (if (c == ' ') = true then _ else splitSpGo (c :: acc) (pr ++ r)) = _
    rw [if_neg (by simp [h c (List.mem_cons_self c pr)]),
      ih (c :: acc) r (fun x hx => h x (List.mem_cons_of_mem c hx))]
    simp [List.append_assoc]

theorem splitSpGo_emit (acc r : List Char) (hacc : acc ≠ [])
    (hr : r = [] ∨ ∃ t, r = ' ' :: t) :
    splitSpGo acc r = acc.reverse :: splitSpGo [] r := by
  rcases acc with _ | ⟨a, as⟩
  · exact absurd rfl hacc
  · rcases hr with rfl | ⟨t, rfl⟩
    · simp [splitSpGo]
    · simp [splitSpGo]

theorem mem_splitSpGo (r : List Char) : ∀ (acc w : List Char), w ∈ splitSpGo acc r →
    ∀ ch ∈ w, ch ∈ acc ∨ ch ∈ r := by
  induction r with
  | nil =>
    intro acc w hw ch hch
    rcases acc with _ | ⟨a, as⟩
    · simp [splitSpGo] at hw
    · rw [splitSpGo, if_neg (by simp)] at hw
      rw [List.mem_singleton] at hw
      subst hw
      exact Or.inl (List.mem_reverse.mp hch)
  | cons c rt ih =>
    intro acc w hw ch hch
    rw [splitSpGo] at hw
    by_cases hc : (c == ' ') = true
    · rw [if_pos hc] at hw
      rcases acc with _ | ⟨a, as⟩
      · simp only [List.isEmpty_nil, if_true] at hw
        rcases ih [] w hw ch hch with h | h
        · exact absurd h (List.not_mem_nil ch)
        · exact Or.inr (List.mem_cons_of_mem c h)
      · rw [if_neg (by simp)] at hw
        rcases List.mem_cons.mp hw with h | h
        · subst h
          exact Or.inl (List.mem_reverse.mp hch)
        · rcases ih [] w h ch hch with h' | h'
          · exact absurd h' (List.not_mem_nil ch)
          · exact Or.inr (List.mem_cons_of_mem c h')
    · rw [if_neg hc] at hw
      rcases ih (c :: acc) w hw ch hch with h | h
      · rcases List.mem_cons.mp h with h' | h'
        · subst h'
          exact Or.inr (List.mem_cons_self ch rt)
        · exact Or.inl h'
      · exact Or.inr (List.mem_cons_of_mem c h)

theorem spaceless_splitSpGo (r : List Char) : ∀ (acc w : List Char),
    (∀ ch ∈ acc, (ch == ' ') = false) → w ∈ splitSpGo acc r →
    ∀ ch ∈ w, (ch == ' ') = false := by
  induction r with
  | nil =>
    intro acc w hacc hw ch hch
    rcases acc with _ | ⟨a, as⟩
    · simp [splitSpGo] at hw
    · rw [splitSpGo, if_neg (by simp)] at hw
      rw [List.mem_singleton] at hw
      subst hw
      exact hacc ch (List.mem_reverse.mp hch)
  | cons c rt ih =>
    intro acc w hacc hw ch hch
    rw [splitSpGo] at hw
    by_cases hc : (c == ' ') = true
    · rw [if_pos hc] at hw
      rcases acc with _ | ⟨a, as⟩
      · simp only [List.isEmpty_nil, if_true] at hw
        exact ih [] w (by simp) hw ch hch
      · rw [if_neg (by simp)] at hw
        rcases List.mem_cons.mp hw with h | h
        · subst h
          exact hacc ch (List.mem_reverse.mp hch)
        · exact ih [] w (by simp) h ch hch
    · rw [if_neg hc] at hw
      refine ih (c :: acc) w ?_ hw ch hch
      intro x hx
      rcases List.mem_cons.mp hx with h' | h'
      · subst h'
        exact Bool.of_not_eq_true hc
      · exact hacc x h'

theorem serAttr_flat_shape (attrs : List (List Char × List Char)) :
    attrs.flatMap serAttr = [] ∨ ∃ t, attrs.flatMap serAttr = ' ' :: t := by
  cases attrs with
  | nil => exact Or.inl rfl
  | cons a as =>
    exact Or.inr ⟨(a.1 ++ '=' :: a.2) ++ as.flatMap serAttr, by simp [serAttr]⟩

theorem mem_serAttr_flat {attrs : List (List Char × List Char)}
    (hwf : ∀ a ∈ attrs, a.1 = hrefName ∧
      ∀ ch ∈ a.2, ((ch == '>') = false ∧ (ch == ' ') = false))
    {ch : Char} (hch : ch ∈ attrs.flatMap serAttr) : (ch == '>') = false := by
  rcases List.mem_flatMap.mp hch with ⟨a, ha, hcha⟩
  rcases hwf a ha with ⟨h1, h2⟩
  simp only [serAttr] at hcha
  rcases List.mem_cons.mp hcha with rfl | h
  · decide
  · rcases List.mem_append.mp h with h' | h'
    · rw [h1] at h'
      have hall : ∀ x ∈ hrefName, (x == '>') = false := by decide
      exact hall ch h'
    · rcases List.mem_cons.mp h' with rfl | h''
      · decide
      · exact (h2 ch h'').1

theorem allowed_tag_chars : ∀ n ∈ allowedTags, ∀ c ∈ n,
    ((c == '>') = false ∧ (c == ' ') = false ∧ (c == '/') = false) := by
  decide

theorem allowed_tag_lower : ∀ n ∈ allowedTags, n.map Char.toLower = n := by decide

theorem allowed_tag_nonnil : ∀ n ∈ allowedTags, n ≠ [] := by decide

theorem takeWhile_all {p : Char → Bool} {w : List Char}
    (h : ∀ c ∈ w, p c = true) : w.takeWhile p = w := by
  have h2 := takeWhile_append_all (p := p) (w := w) [] h
  simpa using h2

theorem scanGo_skipTag (w : List Char) : ∀ (acc r : List Char),
    (∀ ch ∈ w, (ch == '>') = false) →
    scanGo (some acc) (w ++ r) = scanGo (some (w.reverse ++ acc)) r := by
  induction w with
  | nil => intro acc r _; simp
  | cons c wr ih =>
    intro acc r h
    rw [List.cons_append]
    show (if (c == '>') = true then _ else scanGo (some (c :: acc)) (wr ++ r)) = _
    rw [if_neg (by simp [h c (List.mem_cons_self c wr)]),
      ih (c :: acc) r (fun x hx => h x (List.mem_cons_of_mem c hx))]
    simp [List.append_assoc]

theorem scanGo_closeTag (acc r : List Char) :
    scanGo (some acc) ('>' :: r) = parseTag acc.reverse :: scanGo none r := by
  show (if ('>' == '>') = true then _ else _) = _
  rw [if_pos (by decide)]

theorem parseAttrPiece_roundtrip (v : List Char) :
    parseAttrPiece (hrefName ++ '=' :: v) = (hrefName, v) := by
  unfold parseAttrPiece
  rw [takeWhile_append_all ('=' :: v) (by decide),
    dropWhile_append_all ('=' :: v) (by decide),
    List.takeWhile_cons_of_neg (by decide), List.dropWhile_cons_of_neg (by decide)]
  simp

theorem splitOnSpaces_attrs : ∀ (attrs : List (List Char × List Char)),
    (∀ a ∈ attrs, a.1 = hrefName ∧
      ∀ ch ∈ a.2, ((ch == '>') = false ∧ (ch == ' ') = false)) →
    splitOnSpaces (attrs.flatMap serAttr)
      = attrs.map (fun a => a.1 ++ '=' :: a.2) := by
  intro attrs
  induction attrs with
  | nil => intro _; rfl
  | cons a as ih =>
    intro hwf
    rcases hwf a (List.mem_cons_self a as) with ⟨h1, h2⟩
    have hsp : ∀ ch ∈ a.1 ++ '=' :: a.2, (ch == ' ') = false := by
      intro ch hch
      rcases List.mem_append.mp hch with h' | h'
      · rw [h1] at h'
        have hall : ∀ x ∈ hrefName, (x == ' ') = false := by decide
        exact hall ch h'
      · rcases List.mem_cons.mp h' with rfl | h''
        · decide
        · exact (h2 ch h'').2
    have hne : (a.1 ++ '=' :: a.2) ≠ [] := by
      rw [h1]
      simp [hrefName]
    rw [List.flatMap_cons]
    show splitSpGo [] (serAttr a ++ as.flatMap serAttr) = _
    simp only [serAttr]
    rw [List.cons_append]
    have hstep : splitSpGo [] (' ' :: ((a.1 ++ '=' :: a.2) ++ as.flatMap serAttr))
        = splitSpGo [] ((a.1 ++ '=' :: a.2) ++ as.flatMap serAttr) := by
      show (if (' ' == ' ') = true then _ else _) = _
      rw [if_pos (by decide)]
      simp
    rw [hstep, splitSpGo_chunk (a.1 ++ '=' :: a.2) [] _ hsp, List.append_nil,
      splitSpGo_emit ((a.1 ++ '=' :: a.2).reverse) _ (by simp [hne])
        (serAttr_flat_shape as),
      List.reverse_reverse]
    show (a.1 ++ '=' :: a.2) :: splitOnSpaces (as.flatMap serAttr) = _
    rw [ih (fun x hx => hwf x (List.mem_cons_of_mem a hx))]
    rfl

theorem parseTag_open (n : List Char) (attrs : List (List Char × List Char))
    (hne : n ≠ [])
    (hsp : ∀ c ∈ n, (c == ' ') = false)
    (hhead : ∀ c rest, n = c :: rest → (c == '/') = false)
    (hlow : n.map Char.toLower = n)
    (hwf : ∀ a ∈ attrs, a.1 = hrefName ∧
      ∀ ch ∈ a.2, ((ch == '>') = false ∧ (ch == ' ') = false)) :
    parseTag (n ++ attrs.flatMap serAttr) = HTok.tagOpen n attrs := by
  rcases hn : n with _ | ⟨c, nr⟩
  · exact absurd hn hne
  · subst hn
    rw [List.cons_append]
    show (if (c == '/') = true then _ else _) = _
    rw [if_neg (by simp [hhead c nr rfl])]
    have htk : ((c :: nr) ++ attrs.flatMap serAttr).takeWhile (fun ch => !(ch == ' '))
        = c :: nr := by
      rw [takeWhile_append_all _ (fun x hx => by simp [hsp x hx])]
      rcases serAttr_flat_shape attrs with he | ⟨t, he⟩
      · rw [he]
        simp
      · rw [he, List.takeWhile_cons_of_neg (by decide)]
        simp
    have hdr : ((c :: nr) ++ attrs.flatMap serAttr).dropWhile (fun ch => !(ch == ' '))
        = attrs.flatMap serAttr := by
      rw [dropWhile_append_all _ (fun x hx => by simp [hsp x hx])]
      rcases serAttr_flat_shape attrs with he | ⟨t, he⟩
      · rw [he]
        rfl
      · rw [he, List.dropWhile_cons_of_neg (by decide)]
    rw [List.cons_append] at htk hdr
    rw [htk, hdr, hlow]
    congr 1
    rw [splitOnSpaces_attrs attrs hwf, List.map_map]
    have hmc : ∀ a ∈ attrs, (parseAttrPiece ∘ fun a => a.1 ++ '=' :: a.2) a = id a := by
      intro a ha
      simp only [Function.comp_apply, id_eq]
      conv_lhs => rw [(hwf a ha).1]
      rw [parseAttrPiece_roundtrip, ← (hwf a ha).1]
    rw [List.map_congr_left hmc, List.map_id]

theorem parseTag_close_gen (n : List Char)
    (hsp : ∀ c ∈ n, (c == ' ') = false)
    (hlow : n.map Char.toLower = n) :
    parseTag ('/' :: n) = HTok.tagClose n := by
  simp only [parseTag]
  rw [if_pos (by decide)]
  rw [takeWhile_all (fun x hx => by simp [hsp x hx]), hlow]

theorem parse_serialize : ∀ (ts : List HTok), (∀ t ∈ ts, WfTok t) →
    parseHtml (ts.flatMap serializeTok) = ts := by
  intro ts
  induction ts with
  | nil => intro _; rfl
  | cons t rest ih =>
    intro h
    have ht := h t (List.mem_cons_self t rest)
    have hrest := ih (fun x hx => h x (List.mem_cons_of_mem t hx))
    rw [List.flatMap_cons]
    cases t with
    | text c =>
      have hc : (c == '<') = false := by
        simp only [WfTok] at ht
        simp [ht]
      show scanGo none (c :: rest.flatMap serializeTok) = _
      show (if (c == '<') = true then _ else HTok.text c :: scanGo none (rest.flatMap serializeTok)) = _
      rw [if_neg (by simp [hc])]
      show HTok.text c :: parseHtml (rest.flatMap serializeTok) = _
      rw [hrest]
    | tagOpen n attrs =>
      rcases ht with ⟨hna, hwf⟩
      have hnogt : ∀ ch ∈ n ++ attrs.flatMap serAttr, (ch == '>') = false := by
        intro ch hch
        rcases List.mem_append.mp hch with h' | h'
        · exact (allowed_tag_chars n hna ch h').1
        · exact mem_serAttr_flat hwf h'
      show scanGo none (('<' :: ((n ++ attrs.flatMap serAttr) ++ ['>']))
        ++ rest.flatMap serializeTok) = _
      rw [List.cons_append]
      show (if ('<' == '<') = true then
          scanGo (some []) (((n ++ attrs.flatMap serAttr) ++ ['>']) ++ rest.flatMap serializeTok)
        else _) = _
      rw [if_pos (by decide)]
      rw [List.append_assoc]
      show scanGo (some []) ((n ++ attrs.flatMap serAttr)
        ++ ('>' :: rest.flatMap serializeTok)) = _
      rw [scanGo_skipTag (n ++ attrs.flatMap serAttr) [] _ hnogt, List.append_nil,
        scanGo_closeTag, List.reverse_reverse]
      rw [parseTag_open n attrs (allowed_tag_nonnil n hna)
        (fun c hc => (allowed_tag_chars n hna c hc).2.1)
        (fun c r he => (allowed_tag_chars n hna c (he ▸ List.mem_cons_self c r)).2.2)
        (allowed_tag_lower n hna) hwf]
      show HTok.tagOpen n attrs :: parseHtml (rest.flatMap serializeTok) = _
      rw [hrest]
    | tagClose n =>
      have hn : n ∈ allowedTags := ht
      show scanGo none (('<' :: '/' :: (n ++ ['>'])) ++ rest.flatMap serializeTok) = _
      rw [List.cons_append]
      show (if ('<' == '<') = true then
          scanGo (some []) (('/' :: (n ++ ['>'])) ++ rest.flatMap serializeTok)
        else _) = _
      rw [if_pos (by decide)]
      have hshape : ('/' :: (n ++ ['>'])) ++ rest.flatMap serializeTok
          = ('/' :: n) ++ ('>' :: rest.flatMap serializeTok) := by
        simp
      rw [hshape]
      have hnogt : ∀ ch ∈ '/' :: n, (ch == '>') = false := by
        intro ch hch
        rcases List.mem_cons.mp hch with rfl | h'
        · decide
        · exact (allowed_tag_chars n hn ch h').1
      rw [scanGo_skipTag ('/' :: n) [] _ hnogt, List.append_nil, scanGo_closeTag,
        List.reverse_reverse,
        parseTag_close_gen n (fun c hc => (allowed_tag_chars n hn c hc).2.1)
          (allowed_tag_lower n hn)]
      show HTok.tagClose n :: parseHtml (rest.flatMap serializeTok) = _
      rw [hrest]

theorem parseTag_ne_text (seg : List Char) (c : Char) : parseTag seg ≠ HTok.text c := by
  cases seg with
  | nil => simp [parseTag]
  | cons a rest =>
    by_cases h : (a == '/') = true <;> simp [parseTag, h]

theorem text_mem_scanGo : ∀ (s : List Char) (mode : Option (List Char)) (c : Char),
    HTok.text c ∈ scanGo mode s → (c == '<') = false := by
  intro s
  induction s with
  | nil => intro mode c h; cases mode <;> simp [scanGo] at h
  | cons a rt ih =>
    intro mode c h
    cases mode with
    | none =>
      simp only [scanGo] at h
      by_cases ha : (a == '<') = true
      · rw [if_pos ha] at h
        exact ih _ c h
      · rw [if_neg ha] at h
        rcases List.mem_cons.mp h with he | hm
        · injection he with he'
          subst he'
          exact Bool.of_not_eq_true ha
        · exact ih _ c hm
    | some seg =>
      simp only [scanGo] at h
      by_cases ha : (a == '>') = true
      · rw [if_pos ha] at h
        rcases List.mem_cons.mp h with he | hm
        · exact absurd he.symm (parseTag_ne_text _ c)
        · exact ih _ c hm
      · rw [if_neg ha] at h
        exact ih _ c h

theorem parseTag_attr_values (seg : List Char)
    (hseg : ∀ ch ∈ seg, (ch == '>') = false) :
    ∀ n attrs, parseTag seg = HTok.tagOpen n attrs →
      ∀ a ∈ attrs, ∀ ch ∈ a.2, ((ch == '>') = false ∧ (ch == ' ') = false) := by
  intro n attrs hp a ha ch hch
  cases seg with
  | nil =>
    simp only [parseTag] at hp
    injection hp with h1 h2
    subst h2
    exact absurd ha (List.not_mem_nil a)
  | cons c0 r0 =>
    by_cases h0 : (c0 == '/') = true
    · simp only [parseTag, if_pos h0] at hp
      cases hp
    · simp only [parseTag, if_neg h0] at hp
      injection hp with h1 h2
      subst h2
      rcases List.mem_map.mp ha with ⟨piece, hpiece, rfl⟩
      have hchp : ch ∈ piece := by
        have hs1 := List.dropWhile_sublist (fun c => !(c == '=')) (l := piece)
        have hs2 := List.drop_sublist 1 (piece.dropWhile (fun c => !(c == '=')))
        exact (hs2.trans hs1).subset hch
      constructor
      · rcases mem_splitSpGo _ [] piece hpiece ch hchp with h' | h'
        · exact absurd h' (List.not_mem_nil ch)
        · exact hseg ch ((List.dropWhile_sublist _).subset h')
      · exact spaceless_splitSpGo _ [] piece (by simp) hpiece ch hchp

theorem tagOpen_mem_scanGo : ∀ (s : List Char) (mode : Option (List Char)),
    (∀ acc, mode = some acc → ∀ ch ∈ acc, (ch == '>') = false) →
    ∀ n attrs, HTok.tagOpen n attrs ∈ scanGo mode s →
      ∀ a ∈ attrs, ∀ ch ∈ a.2, ((ch == '>') = false ∧ (ch == ' ') = false) := by
  intro s
  induction s with
  | nil =>
    intro mode hmode n attrs h
    cases mode <;> simp [scanGo] at h
  | cons c rt ih =>
    intro mode hmode n attrs h
    cases mode with
    | none =>
      simp only [scanGo] at h
      by_cases hc : (c == '<') = true
      · rw [if_pos hc] at h
        exact ih _ (fun acc he => by
          injection he with he'
          subst he'
          intro ch hch
          exact absurd hch (List.not_mem_nil ch)) n attrs h
      · rw [if_neg hc] at h
        rcases List.mem_cons.mp h with he | hm
        · cases he
        · exact ih _ (fun acc he => by simp at he) n attrs hm
    | some seg =>
      simp only [scanGo] at h
      by_cases hc : (c == '>') = true
      · rw [if_pos hc] at h
        rcases List.mem_cons.mp h with he | hm
        · have hs : ∀ ch ∈ seg.reverse, (ch == '>') = false := by
            intro ch hch
            exact hmode seg rfl ch (List.mem_reverse.mp hch)
          exact parseTag_attr_values seg.reverse hs n attrs he.symm
        · exact ih _ (fun acc he => by simp at he) n attrs hm
      · rw [if_neg hc] at h
        refine ih _ ?_ n attrs h
        intro acc he
        injection he with he'
        subst he'
        intro ch hch
        rcases List.mem_cons.mp hch with rfl | hch'
        · exact Bool.of_not_eq_true hc
        · exact hmode seg rfl ch hch'

theorem wf_sanitized (s : List Char) :
    ∀ t ∈ (parseHtml s).filterMap sanitizeTok, WfTok t := by
  intro t ht
  rcases List.mem_filterMap.mp ht with ⟨t0, ht0, hst⟩
  cases t0 with
  | text c =>
    simp only [sanitizeTok] at hst
    injection hst with h'
    subst h'
    show c ≠ '<'
    have hc := text_mem_scanGo s none c ht0
    intro he
    rw [he] at hc
    simp at hc
  | tagOpen n attrs =>
    simp only [sanitizeTok] at hst
    by_cases hn : n ∈ allowedTags
    · rw [if_pos hn] at hst
      injection hst with h'
      subst h'
      refine ⟨hn, ?_⟩
      intro a ha
      have haf := List.mem_filter.mp ha
      refine ⟨by simpa using haf.2, ?_⟩
      intro ch hch
      exact tagOpen_mem_scanGo s none (fun acc he => by simp at he) n attrs ht0 a haf.1 ch hch
    · rw [if_neg hn] at hst
      cases hst
  | tagClose n =>
    simp only [sanitizeTok] at hst
    by_cases hn : n ∈ allowedTags
    · rw [if_pos hn] at hst
      injection hst with h'
      subst h'
      exact hn
    · rw [if_neg hn] at hst
      cases hst

theorem sanitizeTok_wf_fix (t : HTok) (h : WfTok t) : sanitizeTok t = some t := by
  cases t with
  | text c => rfl
  | tagOpen n attrs =>
    rcases h with ⟨hn, hwf⟩
    simp only [sanitizeTok, if_pos hn]
    rw [List.filter_eq_self.mpr (fun a ha => by simp [(hwf a ha).1])]
  | tagClose n =>
    have hn : n ∈ allowedTags := h
    simp only [sanitizeTok, if_pos hn]

theorem filterMap_fix {f : HTok → Option HTok} : ∀ (l : List HTok),
    (∀ t ∈ l, f t = some t) → l.filterMap f = l := by
  intro l
  induction l with
  | nil => intro _; rfl
  | cons t r ih =>
    intro h
    rw [List.filterMap_cons_some (h t (List.mem_cons_self t r)),
      ih (fun x hx => h x (List.mem_cons_of_mem t hx))]

theorem sanitizeHtml_idem (s : List Char) :
    sanitizeHtml (sanitizeHtml s) = sanitizeHtml s := by
  show ((parseHtml ((((parseHtml s).filterMap sanitizeTok)).flatMap serializeTok)).filterMap
    sanitizeTok).flatMap serializeTok = sanitizeHtml s
  rw [parse_serialize _ (wf_sanitized s),
    filterMap_fix _ (fun t ht => sanitizeTok_wf_fix t (wf_sanitized s t ht))]
  rfl

/-- C9: for every input, the output of `sanitizeHtml` (spec: `sanitizeMarkup`,
modelled from the spec over the external DOMPurify dependency) contains no
markup tag outside the allow-list `{b, i, em, strong, a}`, and every
surviving tag carries no attribute other than `href` (in particular no
`data-*` attribute); the function is total, so it never throws and yields a
best-effort cleaned string even for malformed markup. -/
theorem C9_markup_allowlist_closure (s : List Char) (t : HTok)
    (ht : t ∈ parseHtml (sanitizeHtml s)) :
    (∀ n attrs, t = HTok.tagOpen n attrs →
        n ∈ allowedTags ∧ ∀ a ∈ attrs, a.1 = hrefName) ∧
      (∀ n, t = HTok.tagClose n → n ∈ allowedTags) := by
  have hrt := parse_serialize ((parseHtml s).filterMap sanitizeTok) (wf_sanitized s)
  have ht' : t ∈ (parseHtml s).filterMap sanitizeTok := by
    rw [← hrt]
    exact ht
  have hwf : WfTok t := wf_sanitized s t ht'
  constructor
  · intro n attrs he
    subst he
    exact ⟨hwf.1, fun a ha => (hwf.2 a ha).1⟩
  · intro n he
    subst he
    exact hwf

theorem C9_witness :
    HTok.tagOpen ("a".toList) [(hrefName, ("u".toList))]
        ∈ parseHtml (sanitizeHtml ("<a href=u data-x=1><script>x</script>".toList)) ∧
      ("a".toList) ∈ allowedTags :=
  ⟨by decide,
    ((C9_markup_allowlist_closure ("<a href=u data-x=1><script>x</script>".toList)
        (HTok.tagOpen ("a".toList) [(hrefName, ("u".toList))]) (by decide)).1
      ("a".toList) [(hrefName, ("u".toList))] rfl).1⟩

/-- C1 (amended): `sanitizeHtml` (spec: `sanitizeMarkup`, modelled from the
spec over the external DOMPurify dependency) is idempotent on every input;
`sanitizeText` (spec: `sanitizePlainText`) is idempotent on every input whose
first-pass output contains no further case-insensitive occurrence of
`javascript:`; and `validateSearchQuery` (spec: `sanitizeSearchTerm`) is
idempotent on every input whose first-pass output contains no further
occurrence of `--`, `/*`, `*/`, or case-insensitive `xp_`/`sp_`.  In general
the last two are not idempotent: deleting an occurrence can splice the
surrounding characters into a fresh occurrence. -/
theorem C1_sanitizer_idempotence_amended :
    (∀ s, sanitizeHtml (sanitizeHtml s) = sanitizeHtml s) ∧
      (∀ s, occursCI ("javascript:".toList) (sanitizeText s) = false →
        sanitizeText (sanitizeText s) = sanitizeText s) ∧
      (∀ s, occurs ("--".toList) (validateSearchQuery s) = false →
        occurs ("/*".toList) (validateSearchQuery s) = false →
        occurs ("*/".toList) (validateSearchQuery s) = false →
        occursCI ("xp_".toList) (validateSearchQuery s) = false →
        occursCI ("sp_".toList) (validateSearchQuery s) = false →
        validateSearchQuery (validateSearchQuery s) = validateSearchQuery s) := by
  refine ⟨sanitizeHtml_idem, ?_, ?_⟩
  · intro s hjs
    refine sanitizeText_fixpoint (sanitizeText s) ?_ hjs (trim_idempotent _)
    intro c hc
    exact (List.mem_filter.mp (mem_removeAllCI (mem_trim hc))).2
  · intro s h1 h2 h3 h4 h5
    refine vsq_fixpoint (validateSearchQuery s) ?_ h1 h2 h3 h4 h5
      (vsq_length_le s) (trim_idempotent _)
    intro c hc
    exact (List.mem_filter.mp (mem_vsq_chain hc)).2

theorem C1_witness :
    sanitizeHtml (sanitizeHtml ("<script>x</script><b>y</b>".toList))
        = sanitizeHtml ("<script>x</script><b>y</b>".toList) ∧
      sanitizeText (sanitizeText ("hello world".toList))
        = sanitizeText ("hello world".toList) ∧
      validateSearchQuery (validateSearchQuery ("admin search".toList))
        = validateSearchQuery ("admin search".toList) :=
  ⟨C1_sanitizer_idempotence_amended.1 _,
    C1_sanitizer_idempotence_amended.2.1 ("hello world".toList) (by decide),
    C1_sanitizer_idempotence_amended.2.2 ("admin search".toList)
      (by decide) (by decide) (by decide) (by decide) (by decide)⟩
